import Mathlib

/-!
Verification development for the Polymarket monitoring agent.

The source under study is a Python program with three relevant modules:

* `web_scraper_client.py` — heuristic extraction of market data from an HTML
  document (`extract_market_data`, `_extract_title`, `_extract_markets`,
  `_parse_market_element`, `_parse_outcome_element`, `_extract_prices_fallback`);
* `markdown_writer.py` — maintenance of an append-style markdown log
  (`_combine_content`, `_create_header`, `_limit_entries`);
* `polymarket_client.py` — normalization of an API payload into a flat record
  (`get_simplified_price_data`, `get_market_prices_from_clob`).

Conventions of the shallow embedding:

* Python strings are Lean `String`s; character-level scanning (the `re` module
  calls) is modelled by structurally recursive functions on `List Char`,
  matching the exact regular expressions used by the source.
* Python floats are modelled as exact rationals `ℚ` (the numeric literals the
  program manipulates are small decimal fractions).
* A markdown document is represented by its list of lines, that is, the result
  of Python `content.split(chr 10)`; the source itself converts between the
  two views at every step, and the conversion is a bijection onto lists of
  newline-free strings.
* HTTP fetches performed by the source are external collaborators: the fetched
  data appears as an explicit argument of the embedded function.
* Exception handlers in the source are noted where they matter; the embedded
  functions are total, and no modelled code path raises.
-/

/-! ## Character-level helpers (Python `re` behaviour on the patterns used) -/

/-- Python `str.strip`: remove leading and trailing whitespace. -/
def trimChars (l : List Char) : List Char :=
  ((l.dropWhile Char.isWhitespace).reverse.dropWhile Char.isWhitespace).reverse

/-- Value of a list of decimal digit characters. -/
def digitsToNat (l : List Char) : Nat :=
  l.foldl (fun n c => 10 * n + (c.toNat - 48)) 0

/-- Numeric value of a regex group matching a decimal number with an optional
fractional part, exactly the shape captured by the pattern
`(digits or digits.digits)` in the source; this is Python `float` applied to
the group, read as an exact rational.  Built through `mkRat` so that the
kernel can evaluate it; `groupToRat_dot` below restates it with `/`. -/
def groupToRat (g : List Char) : ℚ :=
  let ip := g.takeWhile Char.isDigit
  match g.dropWhile Char.isDigit with
  | '.' :: fs => mkRat (digitsToNat ip * 10 ^ fs.length + digitsToNat fs) (10 ^ fs.length)
  | _ => mkRat (digitsToNat ip) 1

/-- Division of a (nonnegative) price by `100`, the operation
`price_val / 100` of the source, in a kernel-evaluable form. -/
def div100 (v : ℚ) : ℚ :=
  mkRat v.num (v.den * 100)

/-- `div100` is division by `100`. -/
theorem div100_eq (v : ℚ) : div100 v = v / 100 := by
  rw [div100, Rat.mkRat_eq_div]
  push_cast
  rw [div_mul_eq_div_div]
  congr 1
  exact_mod_cast Rat.num_div_den v

/-- On a plain digit group, `groupToRat` is the digit value. -/
theorem groupToRat_digits (g : List Char) (h : ∀ c ∈ g, c.isDigit = true) :
    groupToRat g = (digitsToNat g : ℚ) := by
  unfold groupToRat
  rw [List.takeWhile_eq_self_iff.mpr h]
  have hd : g.dropWhile Char.isDigit = [] := List.dropWhile_eq_nil_iff.mpr h
  rw [hd]
  simp [Rat.mkRat_eq_div]

/-- One attempt of the regex `(digits(.digits)?)%` at the current position,
after the mandatory digit run `ds` and a dot have been consumed: the fraction
must be a digit run immediately followed by the percent sign.  Returns the
captured group and the remainder after the match. -/
def percentAfterFrac (ds : List Char) : List Char → Option (List Char × List Char)
  | c :: rest =>
    if c.isDigit then
      match (c :: rest).dropWhile Char.isDigit with
      | '%' :: r4 => some (ds ++ '.' :: (c :: rest).takeWhile Char.isDigit, r4)
      | _ => none
    else none
  | [] => none

/-- One attempt of the regex `(digits(.digits)?)%` at the start of `l`
(the engine only starts a match at a digit; backtracking inside a digit run can
never succeed because a shorter run is followed by another digit, so the
maximal-run reading below is exact).  Returns the captured group and the
remainder after the `%`. -/
def percentMatchAt (l : List Char) : Option (List Char × List Char) :=
  let ds := l.takeWhile Char.isDigit
  match l.dropWhile Char.isDigit with
  | '.' :: rest => percentAfterFrac ds rest
  | '%' :: r2 => some (ds, r2)
  | _ => none

/-- `re.search` for the pattern `(digits(.digits)?)%`: group 1 of the first
match, scanning positions left to right. -/
def percentSearch : List Char → Option (List Char)
  | [] => none
  | c :: rest =>
    if c.isDigit then
      match percentMatchAt (c :: rest) with
      | some (g, _) => some g
      | none => percentSearch rest
    else percentSearch rest

/-- `re.search` for the pattern `(digits(.digits)?)[¢%]?`: group 1 of the first
match.  The suffix class is optional, so the match succeeds at the first digit
and the group is the number found there. -/
def priceSearch : List Char → Option (List Char)
  | [] => none
  | c :: rest =>
    if c.isDigit then
      some
        (let ds := (c :: rest).takeWhile Char.isDigit
         match (c :: rest).dropWhile Char.isDigit with
         | '.' :: d :: r2 =>
           if d.isDigit then ds ++ '.' :: (d :: r2).takeWhile Char.isDigit else ds
         | _ => ds)
    else priceSearch rest

/-- `re.sub(pattern, empty, text)` for the percentage pattern: remove every
leftmost non-overlapping match; on a failed attempt the scan advances by one
character.  The fuel argument is the length of the remaining input, which
strictly decreases at every step. -/
def subPercentAux : Nat → List Char → List Char
  | 0, l => l
  | _ + 1, [] => []
  | fuel + 1, c :: rest =>
    if c.isDigit then
      match percentMatchAt (c :: rest) with
      | some (_, after) => subPercentAux fuel after
      | none => c :: subPercentAux fuel rest
    else c :: subPercentAux fuel rest

/-- Remove every match of `digits(.digits)?%` from `l`. -/
def subPercent (l : List Char) : List Char :=
  subPercentAux l.length l

/-- Remainder of `l` after the match of `digits(.digits)?[¢%]?` that starts at
`l` (whose head is a digit): the number token plus at most one cent or percent
sign directly after it. -/
def priceTokEnd (l : List Char) : List Char :=
  let r := l.dropWhile Char.isDigit
  let r2 := match r with
            | '.' :: c :: rest => if c.isDigit then (c :: rest).dropWhile Char.isDigit else r
            | _ => r
  match r2 with
  | '¢' :: r3 => r3
  | '%' :: r3 => r3
  | _ => r2

/-- `re.sub` for the pattern `digits(.digits)?[¢%]?` with fuel, as above. -/
def subPriceAux : Nat → List Char → List Char
  | 0, l => l
  | _ + 1, [] => []
  | fuel + 1, c :: rest =>
    if c.isDigit then subPriceAux fuel (priceTokEnd (c :: rest))
    else c :: subPriceAux fuel rest

/-- Remove every match of `digits(.digits)?[¢%]?` from `l`. -/
def subPriceTok (l : List Char) : List Char :=
  subPriceAux l.length l

/-! ## `_parse_outcome_element` (web_scraper_client.py, lines 191-226)

The Python function receives a DOM element; its first step is
`text = element.get_text(strip=True)`.  The embedding takes that text
directly; the DOM side appears further below with the extraction pipeline. -/

/-- One parsed outcome: the `{name, price}` dictionary built by the source. -/
structure Outcome where
  name : String
  price : Option ℚ
deriving DecidableEq, Repr

/-- `_parse_outcome_element`, given the stripped text of the element.

Source logic: search for a percentage (`N%`) first; if found, the price is
`N / 100` and the name is the text with every percentage substring removed and
stripped.  Otherwise search for a bare number with optional cent or percent
suffix; divide by `100` when the text contains a cent sign or when the value
exceeds `100`; the name is the text with every such token removed and
stripped.  If no number occurs, the name is the whole text and the price is
absent.  The function returns `None` whenever the resulting name is the empty
string (the final `return outcome if outcome.get name else None`). -/
def parse_outcome_element (text : String) : Option Outcome :=
  let cs := text.data
  match percentSearch cs with
  | some g =>
    let nm := trimChars (subPercent cs)
    if nm.isEmpty then none else some ⟨⟨nm⟩, some (div100 (groupToRat g))⟩
  | none =>
    match priceSearch cs with
    | some g =>
      let v := groupToRat g
      let v2 := if cs.contains '¢' then div100 v else if 100 < v then div100 v else v
      let nm := trimChars (subPriceTok cs)
      if nm.isEmpty then none else some ⟨⟨nm⟩, some v2⟩
    | none => if cs.isEmpty then none else some ⟨text, none⟩

/-! ## Lemmas about the regex scans -/

/-- A successful attempt of the percentage pattern after the dot needs a
percent sign in the remainder. -/
theorem percentAfterFrac_mem_pct {ds m : List Char} {x : List Char × List Char}
    (h : percentAfterFrac ds m = some x) : '%' ∈ m := by
  cases m with
  | nil => simp [percentAfterFrac] at h
  | cons c rest =>
    simp only [percentAfterFrac] at h
    by_cases hc : c.isDigit = true
    · rw [if_pos hc] at h
      split at h
      next heq =>
        have hs : (c :: rest).dropWhile Char.isDigit <:+ c :: rest := List.dropWhile_suffix _
        have hm : '%' ∈ (c :: rest).dropWhile Char.isDigit := by
          rw [heq]; exact List.mem_cons_self _ _
        exact hs.mem hm
      next => exact absurd h (by simp)
    · rw [if_neg hc] at h
      exact absurd h (by simp)

/-- A successful attempt of the percentage pattern needs a percent sign. -/
theorem percentMatchAt_mem_pct {l : List Char} {x : List Char × List Char}
    (h : percentMatchAt l = some x) : '%' ∈ l := by
  have hs : l.dropWhile Char.isDigit <:+ l := List.dropWhile_suffix _
  unfold percentMatchAt at h
  split at h
  next heq =>
    have hm : '%' ∈ l.dropWhile Char.isDigit := by
      rw [heq]
      exact List.mem_cons_of_mem _ (percentAfterFrac_mem_pct h)
    exact hs.mem hm
  next heq =>
    have hm : '%' ∈ l.dropWhile Char.isDigit := by rw [heq]; exact List.mem_cons_self _ _
    exact hs.mem hm
  next => exact absurd h (by simp)

/-- Without a percent sign in the text, the percentage search fails. -/
theorem percentSearch_eq_none {l : List Char} (h : '%' ∉ l) : percentSearch l = none := by
  induction l with
  | nil => rfl
  | cons c rest ih =>
    have h1 : '%' ∉ rest := fun hm => h (List.mem_cons_of_mem _ hm)
    unfold percentSearch
    cases hc : c.isDigit with
    | true =>
      simp only [hc, if_true]
      cases hm : percentMatchAt (c :: rest) with
      | some x => exact absurd (percentMatchAt_mem_pct hm) h
      | none => simpa using ih h1
    | false => simpa [hc] using ih h1

/-- With a digit somewhere in the text, the generic numeric search succeeds. -/
theorem priceSearch_isSome {l : List Char} (h : ∃ c ∈ l, c.isDigit = true) :
    ∃ g, priceSearch l = some g := by
  induction l with
  | nil => exact absurd h (by simp)
  | cons c rest ih =>
    unfold priceSearch
    cases hc : c.isDigit with
    | true => exact ⟨_, if_pos rfl⟩
    | false =>
      have h1 : ∃ c ∈ rest, c.isDigit = true := by
        obtain ⟨d, hd, hdig⟩ := h
        rcases List.mem_cons.mp hd with rfl | hd2
        · exact absurd hdig (by simp [hc])
        · exact ⟨d, hd2, hdig⟩
      simpa [hc] using ih h1

/-- `takeWhile` across an append whose left part satisfies the predicate and
whose right part starts with a failing element. -/
theorem takeWhile_append_stop {p : Char → Bool} (A : List Char) (b : Char) (B : List Char)
    (hA : ∀ a ∈ A, p a = true) (hb : p b = false) :
    (A ++ b :: B).takeWhile p = A := by
  induction A with
  | nil => simp [List.takeWhile_cons, hb]
  | cons a A ih =>
    have ha : p a = true := hA a (List.mem_cons_self _ _)
    simp [List.takeWhile_cons, ha, ih (fun x hx => hA x (List.mem_cons_of_mem _ hx))]

/-- `dropWhile` across the same shape of append. -/
theorem dropWhile_append_stop {p : Char → Bool} (A : List Char) (b : Char) (B : List Char)
    (hA : ∀ a ∈ A, p a = true) (hb : p b = false) :
    (A ++ b :: B).dropWhile p = b :: B := by
  induction A with
  | nil => simp [List.dropWhile_cons, hb]
  | cons a A ih =>
    have ha : p a = true := hA a (List.mem_cons_self _ _)
    simp [List.dropWhile_cons, ha, ih (fun x hx => hA x (List.mem_cons_of_mem _ hx))]

/-- The percentage pattern matches a digit run followed by the percent sign,
capturing exactly the run. -/
theorem percentMatchAt_digits {ds t : List Char} (_hne : ds ≠ [])
    (hdig : ∀ c ∈ ds, c.isDigit = true) :
    percentMatchAt (ds ++ '%' :: t) = some (ds, t) := by
  unfold percentMatchAt
  rw [dropWhile_append_stop ds '%' t hdig (by decide),
      takeWhile_append_stop ds '%' t hdig (by decide)]
  rfl

/-- The percentage search ignores a digit-free prelude. -/
theorem percentSearch_skip {pre : List Char} (l : List Char)
    (hpre : ∀ c ∈ pre, c.isDigit = false) :
    percentSearch (pre ++ l) = percentSearch l := by
  induction pre with
  | nil => rfl
  | cons c pre ih =>
    have hc : c.isDigit = false := hpre c (List.mem_cons_self _ _)
    simp only [List.cons_append]
    calc percentSearch (c :: (pre ++ l)) = percentSearch (pre ++ l) := by
          rw [percentSearch]
          exact if_neg (by simp [hc])
      _ = percentSearch l := ih (fun x hx => hpre x (List.mem_cons_of_mem _ hx))

/-- The percentage search at a digit run followed by the percent sign captures
the run. -/
theorem percentSearch_digits {ds t : List Char} (hne : ds ≠ [])
    (hdig : ∀ c ∈ ds, c.isDigit = true) :
    percentSearch (ds ++ '%' :: t) = some ds := by
  cases ds with
  | nil => exact absurd rfl hne
  | cons d ds2 =>
    have hd : d.isDigit = true := hdig d (List.mem_cons_self _ _)
    simp only [List.cons_append]
    unfold percentSearch
    rw [if_pos hd]
    have hm : percentMatchAt (d :: (ds2 ++ '%' :: t)) = some (d :: ds2, t) := by
      simpa using percentMatchAt_digits hne hdig
    rw [hm]

/-- `subPercentAux` ignores its fuel on the empty list. -/
theorem subPercentAux_nil (fuel : Nat) : subPercentAux fuel [] = [] := by
  cases fuel <;> rfl

/-- Removing the percentage matches of a text of the shape
`prelude ++ digits ++ percent sign` leaves exactly the prelude, provided the
prelude has no digits. -/
theorem subPercentAux_strip (ds : List Char) (hne : ds ≠ [])
    (hdig : ∀ c ∈ ds, c.isDigit = true) :
    ∀ (pre : List Char) (fuel : Nat), (∀ c ∈ pre, c.isDigit = false) →
      (pre ++ (ds ++ ['%'])).length ≤ fuel →
      subPercentAux fuel (pre ++ (ds ++ ['%'])) = pre := by
  intro pre
  induction pre with
  | nil =>
    intro fuel _ hfuel
    cases ds with
    | nil => exact absurd rfl hne
    | cons d ds2 =>
      cases fuel with
      | zero => simp at hfuel
      | succ f =>
        have hd : d.isDigit = true := hdig d (List.mem_cons_self _ _)
        simp only [List.nil_append, List.cons_append]
        unfold subPercentAux
        rw [if_pos hd]
        have hm : percentMatchAt (d :: (ds2 ++ ['%'])) = some (d :: ds2, []) := by
          simpa using percentMatchAt_digits (t := []) hne hdig
        rw [hm]
        exact subPercentAux_nil f
  | cons c pre ih =>
    intro fuel hpre hfuel
    cases fuel with
    | zero => simp at hfuel
    | succ f =>
      have hc : c.isDigit = false := hpre c (List.mem_cons_self _ _)
      simp only [List.cons_append]
      unfold subPercentAux
      rw [if_neg (by simp [hc])]
      have hf : (pre ++ (ds ++ ['%'])).length ≤ f := by
        simp only [List.cons_append, List.length_cons] at hfuel
        omega
      rw [ih f (fun x hx => hpre x (List.mem_cons_of_mem _ hx)) hf]

/-- `subPercent` on the same shape. -/
theorem subPercent_strip (pre ds : List Char) (hpre : ∀ c ∈ pre, c.isDigit = false)
    (hne : ds ≠ []) (hdig : ∀ c ∈ ds, c.isDigit = true) :
    subPercent (pre ++ (ds ++ ['%'])) = pre :=
  subPercentAux_strip ds hne hdig pre _ hpre (le_refl _)

/-! ## Claims C1, C2, C10 about `_parse_outcome_element` -/

/-- Claim C1, counterexample.  The claim asserts, citing the spec examples,
that the bare fragment `45` parses to price `45` and the fragment value `65`
parses to price `0.65`.  Neither holds on the code: a fragment that is a bare
number yields `None` (its name is empty once the numeric token is removed),
and a numeric value of `65 ≤ 100` is kept literally, as in `Yes 65`, whose
price is `65` and not `65 / 100`. -/
theorem claim_C1_counterexample :
    parse_outcome_element "45" = none ∧
    parse_outcome_element "Yes 65" = some ⟨"Yes", some 65⟩ ∧
    (65 : ℚ) ≠ mkRat 65 100 := by
  exact ⟨by decide, by decide, by decide⟩

/-- Claim C1 (amended): for a fragment with a numeric token (first group `g`
of the numeric search), no cent sign, no percent sign, and a non-empty name
residue, `_parse_outcome_element` returns the residue as name and the price
`value / 100` when the value is strictly greater than `100`, and the literal
value otherwise — in particular the boundary value `100` is kept literally. -/
theorem claim_C1 (text : String) (g : List Char)
    (hpct : '%' ∉ text.data)
    (hcent : '¢' ∉ text.data)
    (hg : priceSearch text.data = some g)
    (hname : trimChars (subPriceTok text.data) ≠ []) :
    parse_outcome_element text =
      some ⟨⟨trimChars (subPriceTok text.data)⟩,
        some (if 100 < groupToRat g then div100 (groupToRat g) else groupToRat g)⟩ := by
  simp only [parse_outcome_element]
  rw [percentSearch_eq_none hpct, hg]
  have hcont : text.data.contains '¢' = false := by simp [hcent]
  have hemp : (trimChars (subPriceTok text.data)).isEmpty = false := by
    simp [List.isEmpty_iff, hname]
  simp only [hcont, Bool.false_eq_true, if_false, hemp]

/-- Claim C1, witness: the boundary fragment `Yes 100` parses to the literal
price `100`, not `1`. -/
theorem claim_C1_witness :
    parse_outcome_element "Yes 100" = some ⟨"Yes", some 100⟩ := by
  have h := claim_C1 "Yes 100" ['1', '0', '0'] (by decide) (by decide) (by decide) (by decide)
  exact h.trans (by decide)

/-- Claim C2, counterexample.  The claim asserts that every well-formed
percentage fragment, such as `37%` itself, parses to price `0.37`.  On the
code the fragment `37%` parses to `None`: after the percentage substring is
removed the name is empty, and the final guard of `_parse_outcome_element`
discards nameless outcomes. -/
theorem claim_C2_counterexample :
    parse_outcome_element "37%" = none := by
  decide

/-- Claim C2 (amended): for a percentage fragment made of a digit-free prelude
followed by the digit run `ds` and a percent sign, with the prelude not
whitespace-only, parsing yields price `N / 100` (`N` the value of `ds`) and
the name is the fragment with the percentage substring removed and stripped
of surrounding whitespace; a bare percentage fragment (empty prelude) instead
yields `None`, witnessed by `claim_C2_counterexample`. -/
theorem claim_C2 (pre ds : List Char)
    (hpre : ∀ c ∈ pre, c.isDigit = false)
    (hne : ds ≠ []) (hdig : ∀ c ∈ ds, c.isDigit = true)
    (hname : trimChars pre ≠ []) :
    parse_outcome_element ⟨pre ++ (ds ++ ['%'])⟩ =
      some ⟨⟨trimChars pre⟩, some (div100 (digitsToNat ds : ℚ))⟩ := by
  simp only [parse_outcome_element]
  have hsearch : percentSearch (pre ++ (ds ++ ['%'])) = some ds := by
    rw [percentSearch_skip _ hpre]
    exact percentSearch_digits hne hdig
  have hemp : (trimChars pre).isEmpty = false := by simp [List.isEmpty_iff, hname]
  simp only [hsearch, subPercent_strip pre ds hpre hne hdig, groupToRat_digits ds hdig,
    hemp, Bool.false_eq_true, if_false]

/-- Claim C2, witness: `Yes 37%` parses to name `Yes` and price `37 / 100`. -/
theorem claim_C2_witness :
    parse_outcome_element "Yes 37%" = some ⟨"Yes", some (mkRat 37 100)⟩ := by
  have h := claim_C2 ['Y', 'e', 's', ' '] ['3', '7'] (by decide) (by decide) (by decide)
    (by decide)
  exact h.trans (by decide)

/-- Claim C10: every outcome returned by `_parse_outcome_element` has a
non-empty name; a fragment whose name residue is empty yields `None` instead
of a nameless outcome. -/
theorem claim_C10 (text : String) (o : Outcome)
    (h : parse_outcome_element text = some o) : o.name ≠ "" := by
  simp only [parse_outcome_element] at h
  split at h
  · split at h
    · exact absurd h (by simp)
    next hemp =>
      have hne : trimChars (subPercent text.data) ≠ [] := by
        simpa [List.isEmpty_iff] using hemp
      cases h
      intro hcon
      exact hne (congrArg String.data hcon)
  · split at h
    · split at h
      · exact absurd h (by simp)
      next hemp =>
        have hne : trimChars (subPriceTok text.data) ≠ [] := by
          simpa [List.isEmpty_iff] using hemp
        cases h
        intro hcon
        exact hne (congrArg String.data hcon)
    · split at h
      · exact absurd h (by simp)
      next hemp =>
        have hne : text.data ≠ [] := by simpa [List.isEmpty_iff] using hemp
        cases h
        intro hcon
        exact hne (congrArg String.data hcon)

/-- Claim C10, witness: the fragment `Unsure` produces an outcome and its name
is non-empty. -/
theorem claim_C10_witness : (Outcome.mk "Unsure" none).name ≠ "" :=
  claim_C10 "Unsure" ⟨"Unsure", none⟩ (by decide)

/-! ## The DOM side of the extraction pipeline (web_scraper_client.py)

A parsed HTML document is a forest of nodes: text nodes and element nodes
with a tag, a class list, an attribute list and a child forest.  The forest is
given by an explicit spine so that every traversal below is structurally
recursive.  `element.get_text(strip=True)` concatenates the stripped text
fragments of all descendants; CSS selection returns matching elements in
document order, and an element query searches its descendants only (the
document query searches all elements, every element being a descendant of the
document object). -/

/-- A forest of DOM nodes. -/
inductive Forest where
  | nil : Forest
  | textNode (s : String) (rest : Forest) : Forest
  | elemNode (tag : String) (classes : List String) (attrs : List (String × String))
      (children : Forest) (rest : Forest) : Forest

/-- One DOM element. -/
structure El where
  tag : String
  classes : List String
  attrs : List (String × String)
  children : Forest

/-- `get_text(strip=True)` of a forest: concatenation of the stripped text
fragments, in document order. -/
def getTextF : Forest → String
  | .nil => ""
  | .textNode s rest => (⟨trimChars s.data⟩ : String) ++ getTextF rest
  | .elemNode _ _ _ cs rest => getTextF cs ++ getTextF rest

/-- Substring test, for the CSS attribute operator of `[data-testid*=...]`. -/
def isSubChars (pat : List Char) : List Char → Bool
  | [] => pat.isEmpty
  | c :: rest => pat.isPrefixOf (c :: rest) || isSubChars pat rest

/-- The CSS selector shapes used by the source. -/
inductive Selector where
  | tag (t : String)
  | cls (c : String)
  | attrEq (a v : String)
  | attrContains (a v : String)

/-- Whether an element matches a selector. -/
def matchesSel : Selector → El → Bool
  | .tag t, e => e.tag == t
  | .cls c, e => e.classes.contains c
  | .attrEq a v, e => e.attrs.any (fun p => p.1 == a && p.2 == v)
  | .attrContains a v, e => e.attrs.any (fun p => p.1 == a && isSubChars v.data p.2.data)

/-- All elements of a forest matching a selector, in document order. -/
def selectF (s : Selector) : Forest → List El
  | .nil => []
  | .textNode _ rest => selectF s rest
  | .elemNode t c a cs rest =>
    (if matchesSel s ⟨t, c, a, cs⟩ then [El.mk t c a cs] else []) ++ selectF s cs ++ selectF s rest

/-- `element.select(selector)`: matching descendants of the element. -/
def El.select (e : El) (s : Selector) : List El := selectF s e.children

/-- The title selector chain of `_extract_title` (lines 64-69). -/
def titleSelectors : List Selector :=
  [.tag "h1", .attrEq "data-testid" "event-title", .cls "event-title", .tag "title"]

/-- The loop of `_extract_title`: first selector whose first match has a
non-empty text of length above the threshold `5`; a failed validity check
falls through to the next selector. -/
def titleFromSelectors (doc : Forest) : List Selector → Option String
  | [] => none
  | s :: rest =>
    match (selectF s doc).head? with
    | some el =>
      let t := getTextF el.children
      if t ≠ "" ∧ 5 < t.length then some t else titleFromSelectors doc rest
    | none => titleFromSelectors doc rest

/-- `_extract_title` (lines 60-87): the selector chain, then the page title
tag as fallback, then the fixed default. -/
def extract_title (doc : Forest) : String :=
  match titleFromSelectors doc titleSelectors with
  | some t => t
  | none =>
    match (selectF (.tag "title") doc).head? with
    | some el => getTextF el.children
    | none => "Unknown Market"

/-- One market of the extraction: the `{question?, outcomes}` dictionary of
`_parse_market_element`. -/
structure SubMarket where
  question : Option String
  outcomes : List Outcome
deriving DecidableEq, Repr

/-- Question selectors of `_parse_market_element` (line 154). -/
def questionSelectors : List Selector :=
  [.tag "h2", .tag "h3", .cls "question", .cls "market-title"]

/-- Outcome selectors of `_parse_market_element` (lines 165-170). -/
def outcomeSelectors : List Selector :=
  [.cls "outcome-button", .cls "bet-button", .attrContains "data-testid" "outcome",
   .cls "price-button"]

/-- Market container selectors of `_extract_markets` (lines 122-127). -/
def marketSelectors : List Selector :=
  [.attrContains "data-testid" "market", .cls "market-card", .cls "market-item",
   .cls "outcome-card"]

/-- First selector of the list whose `select_one` on the element finds a
match. -/
def firstFound (e : El) : List Selector → Option El
  | [] => none
  | s :: rest =>
    match (e.select s).head? with
    | some q => some q
    | none => firstFound e rest

/-- First selector of the list with a non-empty `select` on the element. -/
def firstNonEmpty (e : El) : List Selector → List El
  | [] => []
  | s :: rest =>
    let es := e.select s
    if es.isEmpty then firstNonEmpty e rest else es

/-- `_parse_market_element` (lines 148-189): question from the first matching
question selector, outcomes parsed from the first non-empty outcome selector;
`None` when no outcome was parsed. -/
def parse_market_element (e : El) : Option SubMarket :=
  let q := (firstFound e questionSelectors).map (fun qe => getTextF qe.children)
  let outcomes := (firstNonEmpty e outcomeSelectors).filterMap
    (fun oe => parse_outcome_element (getTextF oe.children))
  if outcomes.isEmpty then none else some ⟨q, outcomes⟩

/-- The text-node pattern of `_extract_prices_fallback` (line 234):
`digits followed by a cent or percent sign, or a decimal number`. -/
def hasPriceTok : List Char → Bool
  | [] => false
  | c :: rest =>
    (c.isDigit &&
      (match (c :: rest).dropWhile Char.isDigit with
       | '¢' :: _ => true
       | '%' :: _ => true
       | '.' :: d :: _ => d.isDigit
       | _ => false)) || hasPriceTok rest

/-- All text nodes of the forest with their parent element, in document
order; `find_all(text=...)` traverses exactly these. -/
def textsWithParent : Forest → Option El → List (String × Option El)
  | .nil, _ => []
  | .textNode s rest, p => (s, p) :: textsWithParent rest p
  | .elemNode t c a cs rest, p =>
    textsWithParent cs (some ⟨t, c, a, cs⟩) ++ textsWithParent rest p

/-- `_extract_prices_fallback` (lines 228-257): take the first ten text nodes
matching the price pattern, parse each node's parent element, and wrap the
parsed outcomes in a single synthetic market. -/
def extract_prices_fallback (doc : Forest) : List SubMarket :=
  let hits := ((textsWithParent doc none).filter (fun pr => hasPriceTok pr.1.data)).take 10
  let outs := hits.filterMap (fun pr =>
    match pr.2 with
    | some parent => parse_outcome_element (getTextF parent.children)
    | none => none)
  if outs.isEmpty then [] else [⟨some "Market Prices", outs⟩]

/-- First market selector with a non-empty document-level `select`. -/
def firstNonEmptyDoc (doc : Forest) : List Selector → List El
  | [] => []
  | s :: rest =>
    let es := selectF s doc
    if es.isEmpty then firstNonEmptyDoc doc rest else es

/-- `_extract_markets` (lines 116-146): parse every container found by the
first productive market selector; when nothing was parsed, run the price
fallback. -/
def extract_markets (doc : Forest) : List SubMarket :=
  let containers := firstNonEmptyDoc doc marketSelectors
  let ms := containers.filterMap parse_market_element
  if ms.isEmpty then extract_prices_fallback doc else ms

/-- The fields of `extract_market_data` the claims are about.  The record the
source builds also carries `url`, `timestamp`, `description`, `volume`,
`liquidity`, `end_date` and `status`, each extracted independently; they are
outside every claim and not modelled. -/
structure MarketRecord where
  title : String
  markets : List SubMarket
deriving DecidableEq, Repr

/-- `extract_market_data` (lines 20-58), restricted to the modelled fields. -/
def extract_market_data (doc : Forest) : MarketRecord :=
  ⟨extract_title doc, extract_markets doc⟩

/-! ## Claim C3: the end-to-end extraction scenario -/

/-- The scenario document of claim C3: one `h1` holding the question and one
market container with three outcome buttons. -/
def sampleDoc : Forest :=
  .elemNode "html" [] []
    (.elemNode "body" [] []
      (.elemNode "h1" [] [] (.textNode "Will X happen?" .nil)
        (.elemNode "div" ["market-card"] []
          (.elemNode "button" ["outcome-button"] [] (.textNode "Yes 65%" .nil)
            (.elemNode "button" ["outcome-button"] [] (.textNode "No 35%" .nil)
              (.elemNode "button" ["outcome-button"] [] (.textNode "Unsure" .nil) .nil)))
          .nil))
      .nil)
    .nil

/-- Claim C3, counterexample.  The claim expects outcome names `Yes ` and
`No ` carrying a trailing space; the source strips the names
(`.strip()` at the end of the substitution), so the extracted names are `Yes`
and `No`. -/
theorem claim_C3_counterexample :
    (extract_market_data sampleDoc).markets.map SubMarket.outcomes ≠
      [[⟨"Yes ", some (mkRat 65 100)⟩, ⟨"No ", some (mkRat 35 100)⟩, ⟨"Unsure", none⟩]] := by
  decide

/-- Claim C3 (amended): on the scenario document the extraction returns the
title `Will X happen?` and exactly one sub-market whose outcomes are, in
order, `Yes` with price `0.65`, `No` with price `0.35` and `Unsure` with no
price — the names stripped of the trailing space the claim expected. -/
theorem claim_C3 :
    extract_market_data sampleDoc =
      ⟨"Will X happen?",
        [⟨none, [⟨"Yes", some (mkRat 65 100)⟩, ⟨"No", some (mkRat 35 100)⟩,
          ⟨"Unsure", none⟩]⟩]⟩ := by
  decide

/-! ## markdown_writer.py — the log maintainer

A document is represented by its list of lines (`content.split` on the
newline, which the source performs on entry to both `_combine_content` and
`_limit_entries`).  The new entry is a multi-line string; the source inserts
it as a single list element and joins, so after the next split its lines sit
exactly where the element was inserted — `insertEntry` below reflects that.
`_create_header` interpolates the current time and the configured interval;
both appear as parameters.  Python string concatenation `header + new_entry`
merges the last line of the left operand with the first line of the right
one, which `concatLines` reproduces at the line level. -/

/-- Python `line.startswith(p)`. -/
def lineStarts (p l : String) : Bool := p.data.isPrefixOf l.data

/-- Python `not line.strip()`: the line is empty or whitespace-only. -/
def lineBlank (l : String) : Bool := (trimChars l.data).isEmpty

/-- Python `not existing_content.strip()` at the line level: every line is
blank (newlines themselves are whitespace). -/
def isBlankDoc (lines : List String) : Bool := lines.all lineBlank

/-- The fixed entry-start marker scanned by `_limit_entries` (line 208). -/
def entryMarker : String := "## 📊 Market Update"

/-- Whether a line starts an entry. -/
def isEntryStart (l : String) : Bool := lineStarts entryMarker l

/-- `entry_starts` of `_limit_entries`: the indices of the entry-start
lines, in increasing order. -/
def entryStarts : List String → List Nat
  | [] => []
  | l :: ls =>
    if isEntryStart l then 0 :: (entryStarts ls).map (· + 1)
    else (entryStarts ls).map (· + 1)

/-- Number of entry-start lines of a document. -/
def markerCount (lines : List String) : Nat := lines.countP isEntryStart

/-- The truncation footer line appended by `_limit_entries` (line 221). -/
def truncNote (maxE : Nat) : String :=
  "*Older entries truncated (showing last " ++ toString maxE ++ " updates)*"

/-- `_limit_entries` (lines 197-230): when the number of entries exceeds the
configured maximum, keep every line before the entry marker at index
`maxEntries` and append the separator, the truncation note and a blank
line. -/
def limit_entries (maxE : Nat) (lines : List String) : List String :=
  let es := entryStarts lines
  if maxE < es.length then
    lines.take (es.getD maxE 0) ++ ["---", truncNote maxE, ""]
  else lines

/-- The condition of the description-skipping loop of `_combine_content`
(lines 166-169): the line does not start a heading block and is not blank. -/
def skipCond (l : String) : Bool := !(lineStarts "##" l) && !(lineBlank l)

/-- Number of description lines skipped after the main header. -/
def skipDesc : List String → Nat
  | [] => 0
  | l :: ls => if skipCond l then skipDesc ls + 1 else 0

/-- The insertion index computed by `_combine_content` (lines 160-170): one
past the header and its description when the first line is a level-1 heading,
and the default index `0` otherwise. -/
def findInsertIndex : List String → Nat
  | [] => 0
  | l :: ls => if lineStarts "# " l then 1 + skipDesc ls else 0

/-- `lines.insert(insert_index, new_entry)` followed by the join, at the line
level. -/
def insertEntry (lines entry : List String) : List String :=
  lines.take (findInsertIndex lines) ++ entry ++ lines.drop (findInsertIndex lines)

/-- `_create_header` (lines 186-195), as the lines of the header string; the
string ends with two newlines, hence the two final empty lines. -/
def create_header (ts : String) (interval : Nat) : List String :=
  ["# 🔥 Polymarket Price Monitor", "",
   "*Automated monitoring of Polymarket prediction markets*", "",
   "**Started:** " ++ ts ++ "  ",
   "**Update Interval:** " ++ toString interval ++ " minutes",
   "", ""]

/-- Line-level effect of Python string concatenation: the last line of the
left part fuses with the first line of the right part. -/
def concatLines : List String → List String → List String
  | [], b => b
  | [a], b =>
    match b with
    | [] => [a]
    | y :: ys => (a ++ y) :: ys
  | a :: a2 :: rest, b => a :: concatLines (a2 :: rest) b

/-- `_combine_content` (lines 148-184): synthesize the header for a blank
document, otherwise insert the entry after the detected header; then apply
the retention cap when `max_entries` is positive. -/
def combine_content (maxE : Nat) (ts : String) (interval : Nat)
    (existing entry : List String) : List String :=
  let content :=
    if isBlankDoc existing then concatLines (create_header ts interval) entry
    else insertEntry existing entry
  if 0 < maxE then limit_entries maxE content else content

/-! ## Lemmas about the log maintainer -/

/-- The entry-start index list has one index per marker line. -/
theorem entryStarts_length (lines : List String) :
    (entryStarts lines).length = markerCount lines := by
  induction lines with
  | nil => rfl
  | cons l ls ih =>
    simp only [markerCount] at ih
    by_cases h : isEntryStart l = true
    · simp [entryStarts, markerCount, List.countP_cons, h, ih]
    · simp only [Bool.not_eq_true] at h
      simp [entryStarts, markerCount, List.countP_cons, h, ih]

/-- `getD` through the shift by one of `entryStarts`. -/
theorem getD_map_succ (es : List Nat) (k : Nat) (h : k < es.length) :
    (es.map (· + 1)).getD k 0 = es.getD k 0 + 1 := by
  rw [List.getD_eq_getElem _ _ (by simpa using h), List.getD_eq_getElem _ _ h]
  simp

/-- The lines before the marker at index `k` hold exactly `k` markers: the
cut at `entry_starts[max_entries]` keeps exactly `max_entries` entries. -/
theorem markerCount_take_marker :
    ∀ (lines : List String) (k : Nat), k < (entryStarts lines).length →
      markerCount (lines.take ((entryStarts lines).getD k 0)) = k := by
  intro lines
  induction lines with
  | nil => intro k h; simp [entryStarts] at h
  | cons l ls ih =>
    intro k hk
    by_cases h : isEntryStart l = true
    · cases k with
      | zero => simp [entryStarts, h, markerCount]
      | succ j =>
        have hj : j < (entryStarts ls).length := by
          simp only [entryStarts, h, if_true, List.length_cons, List.length_map] at hk
          omega
        have hgd : (entryStarts (l :: ls)).getD (j + 1) 0 = (entryStarts ls).getD j 0 + 1 := by
          simp only [entryStarts, h, if_true, List.getD_cons_succ]
          exact getD_map_succ _ _ hj
        rw [hgd, List.take_succ_cons]
        have ihj := ih j hj
        simp only [markerCount, List.countP_cons, h, if_true] at ihj ⊢
        omega
    · simp only [Bool.not_eq_true] at h
      have hk2 : k < (entryStarts ls).length := by
        simp only [entryStarts, h, Bool.false_eq_true, if_false, List.length_map] at hk
        exact hk
      have hgd : (entryStarts (l :: ls)).getD k 0 = (entryStarts ls).getD k 0 + 1 := by
        simp only [entryStarts, h, Bool.false_eq_true, if_false]
        exact getD_map_succ _ _ hk2
      rw [hgd, List.take_succ_cons]
      have ihk := ih k hk2
      simp only [markerCount, List.countP_cons, h, Bool.false_eq_true, if_false] at ihk ⊢
      omega

/-- Inserting the entry adds its markers to the existing ones. -/
theorem markerCount_insertEntry (lines entry : List String) :
    markerCount (insertEntry lines entry) = markerCount lines + markerCount entry := by
  unfold insertEntry markerCount
  rw [List.countP_append, List.countP_append]
  have h := congrArg (List.countP isEntryStart)
    (List.take_append_drop (findInsertIndex lines) lines)
  rw [List.countP_append] at h
  omega

/-- Under the cap, `_limit_entries` leaves the document unchanged. -/
theorem limit_entries_noop {maxE : Nat} {lines : List String}
    (h : markerCount lines ≤ maxE) : limit_entries maxE lines = lines := by
  unfold limit_entries
  rw [if_neg]
  rw [entryStarts_length]
  omega

/-- `startswith` as an explicit decomposition. -/
theorem lineStarts_iff {p l : String} : lineStarts p l = true ↔ ∃ t, p.data ++ t = l.data := by
  unfold lineStarts
  rw [List.isPrefixOf_iff_prefix]
  exact Iff.rfl

/-- A list with a non-whitespace member does not strip to nothing. -/
theorem trimChars_ne_nil {l : List Char} {c : Char} (hc : c ∈ l)
    (hw : c.isWhitespace = false) : trimChars l ≠ [] := by
  intro h
  unfold trimChars at h
  rw [List.reverse_eq_nil_iff] at h
  have h2 := List.dropWhile_eq_nil_iff.mp h
  have hcd : c ∈ l.dropWhile Char.isWhitespace := by
    have hsplit : c ∈ l.takeWhile Char.isWhitespace ++ l.dropWhile Char.isWhitespace := by
      rw [List.takeWhile_append_dropWhile]; exact hc
    rcases List.mem_append.mp hsplit with h3 | h3
    · exact absurd (List.mem_takeWhile_imp h3) (by simp [hw])
    · exact h3
  have := h2 c (List.mem_reverse.mpr hcd)
  simp [hw] at this

/-- A line with a non-whitespace character is not blank. -/
theorem lineBlank_false_of_mem {l : String} {c : Char} (hc : c ∈ l.data)
    (hw : c.isWhitespace = false) : lineBlank l = false := by
  unfold lineBlank
  cases hI : (trimChars l.data).isEmpty with
  | false => rfl
  | true => exact absurd (List.isEmpty_iff.mp hI) (trimChars_ne_nil hc hw)

/-- An entry-start line begins with two hash signs. -/
theorem isEntryStart_head {l : String} (h : isEntryStart l = true) :
    ∃ t, l.data = '#' :: '#' :: t := by
  obtain ⟨t, ht⟩ := lineStarts_iff.mp h
  refine ⟨" 📊 Market Update".data ++ t, ?_⟩
  rw [← ht]
  rfl

/-- A line whose first character is not the one `p` starts with cannot start
with `p`. -/
theorem lineStarts_false_of_head {p l : String} {c : Char} (hp : p.data.head? = some c)
    (h : l.data.head? ≠ some c) : lineStarts p l = false := by
  cases hm : lineStarts p l with
  | false => rfl
  | true =>
    obtain ⟨t, ht⟩ := lineStarts_iff.mp hm
    cases hpd : p.data with
    | nil => rw [hpd] at hp; exact absurd hp (by simp)
    | cons a r =>
      rw [hpd] at hp ht
      have ha : a = c := by simpa using hp
      rw [← ht] at h
      exact absurd (by simp [ha]) h

/-- A line that does not begin with a hash sign is not an entry start. -/
theorem isEntryStart_false_of_head {l : String} (h : l.data.head? ≠ some '#') :
    isEntryStart l = false :=
  lineStarts_false_of_head (p := entryMarker) rfl h

/-- A level-1 heading line (`# ` prefix) is not an entry start. -/
theorem isEntryStart_false_of_h1 {l : String} (h : lineStarts "# " l = true) :
    isEntryStart l = false := by
  obtain ⟨t, ht⟩ := lineStarts_iff.mp h
  cases hm : isEntryStart l with
  | false => rfl
  | true =>
    obtain ⟨t2, ht2⟩ := isEntryStart_head hm
    have hcat : '#' :: ' ' :: t = '#' :: '#' :: t2 := by
      rw [show '#' :: ' ' :: t = "# ".data ++ t from rfl, ht, ht2]
    have : (' ' : Char) = '#' := by
      injection hcat with h1 h2
      injection h2 with h3 _
    exact absurd this (by decide)

/-- A skipped description line is not an entry start. -/
theorem isEntryStart_false_of_skipCond {l : String} (h : skipCond l = true) :
    isEntryStart l = false := by
  simp only [skipCond, Bool.and_eq_true, Bool.not_eq_true'] at h
  have h1 : lineStarts "##" l = false := h.1
  cases hm : isEntryStart l with
  | false => rfl
  | true =>
    obtain ⟨t, ht⟩ := lineStarts_iff.mp hm
    have h2 : lineStarts "##" l = true := by
      refine lineStarts_iff.mpr ⟨" 📊 Market Update".data ++ t, ?_⟩
      rw [← ht]
      rfl
    rw [h2] at h1
    cases h1

/-- An entry-start line is not blank. -/
theorem lineBlank_false_of_marker {l : String} (h : isEntryStart l = true) :
    lineBlank l = false := by
  obtain ⟨t, ht⟩ := isEntryStart_head h
  exact lineBlank_false_of_mem (by rw [ht]; exact List.mem_cons_self _ _) (by decide)

/-- A document holding at least one entry marker is not blank. -/
theorem isBlankDoc_false_of_marker {lines : List String} (h : 1 ≤ markerCount lines) :
    isBlankDoc lines = false := by
  obtain ⟨l, hl, hp⟩ := List.countP_pos_iff.mp (by omega : 0 < markerCount lines)
  cases hb : isBlankDoc lines with
  | false => rfl
  | true =>
    have := List.all_eq_true.mp hb l hl
    rw [lineBlank_false_of_marker hp] at this
    cases this

/-- The truncation note line is not an entry start, whatever the cap. -/
theorem isEntryStart_truncNote (m : Nat) : isEntryStart (truncNote m) = false := by
  apply isEntryStart_false_of_head
  have hd : (truncNote m).data.head? = some '*' := by
    rw [truncNote, String.data_append, String.data_append]
    rfl
  rw [hd]
  decide

/-- The three footer lines hold no entry marker. -/
theorem markerCount_footer (m : Nat) : markerCount ["---", truncNote m, ""] = 0 := by
  have h2 : isEntryStart (truncNote m) = false := isEntryStart_truncNote m
  simp [markerCount, List.countP_cons, h2,
    show isEntryStart "---" = false from by decide,
    show isEntryStart "" = false from by decide]

/-- Python string concatenation of `"" : String` on the left is the identity. -/
theorem empty_string_append (y : String) : ("" : String) ++ y = y := by
  cases y
  rfl

/-- Concatenating the header string with a non-empty entry: the header ends
with an empty line, which fuses with the first entry line, so the result is
the header without its last line followed by the entry lines. -/
theorem concatLines_header (ts : String) (interval : Nat) (y : String) (ys : List String) :
    concatLines (create_header ts interval) (y :: ys) =
      (create_header ts interval).dropLast ++ y :: ys := by
  simp [create_header, concatLines, empty_string_append]

/-- The first header line starts a level-1 heading. -/
theorem lineStarts_h1_header : lineStarts "# " "# 🔥 Polymarket Price Monitor" = true := by
  decide

/-- The `Started` line of the header begins with an asterisk. -/
theorem header_started_head (ts : String) :
    ("**Started:** " ++ ts ++ "  ").data.head? = some '*' := by
  rw [String.data_append, String.data_append]
  rfl

/-- The `Update Interval` line of the header begins with an asterisk. -/
theorem header_interval_head (interval : Nat) :
    ("**Update Interval:** " ++ toString interval ++ " minutes").data.head? = some '*' := by
  rw [String.data_append, String.data_append]
  rfl

/-- No line of the truncated header is an entry start. -/
theorem markerCount_header_init (ts : String) (interval : Nat) :
    markerCount ((create_header ts interval).dropLast) = 0 := by
  have h5 : isEntryStart ("**Started:** " ++ ts ++ "  ") = false :=
    isEntryStart_false_of_head (by rw [header_started_head]; decide)
  have h6 : isEntryStart ("**Update Interval:** " ++ toString interval ++ " minutes") = false :=
    isEntryStart_false_of_head (by rw [header_interval_head]; decide)
  simp [create_header, markerCount, List.countP_cons, h5, h6,
    show isEntryStart "# 🔥 Polymarket Price Monitor" = false from by decide,
    show isEntryStart "" = false from by decide,
    show isEntryStart "*Automated monitoring of Polymarket prediction markets*" = false from
      by decide]

/-- Exactly one line of the truncated header is a level-1 heading. -/
theorem h1Count_header_init (ts : String) (interval : Nat) :
    ((create_header ts interval).dropLast).countP (fun l => lineStarts "# " l) = 1 := by
  have h5 : lineStarts "# " ("**Started:** " ++ ts ++ "  ") = false :=
    lineStarts_false_of_head (c := '#') rfl (by rw [header_started_head]; decide)
  have h6 : lineStarts "# " ("**Update Interval:** " ++ toString interval ++ " minutes") = false :=
    lineStarts_false_of_head (c := '#') rfl (by rw [header_interval_head]; decide)
  simp [create_header, List.countP_cons, h5, h6, lineStarts_h1_header,
    show lineStarts "# " "" = false from by decide,
    show lineStarts "# " "*Automated monitoring of Polymarket prediction markets*" = false from
      by decide]

/-! ## Claims C4 and C5 about the log maintainer -/

/-- Claim C5: merging a (non-empty, as a line list) new entry into a blank or
empty document produces the synthesized header followed immediately by the
entry; the header block holds no entry marker and exactly one level-1
heading line.  The retention cap is assumed not to bite (the cap disabled or
at least the marker count of the entry, which is `1` for a rendered entry
against a default cap of `50`). -/
theorem claim_C5 (maxE : Nat) (ts : String) (interval : Nat)
    (existing entry : List String)
    (hblank : isBlankDoc existing = true)
    (hne : entry ≠ [])
    (hcap : maxE = 0 ∨ markerCount entry ≤ maxE) :
    combine_content maxE ts interval existing entry =
      (create_header ts interval).dropLast ++ entry ∧
    markerCount ((create_header ts interval).dropLast) = 0 ∧
    ((create_header ts interval).dropLast).countP (fun l => lineStarts "# " l) = 1 := by
  refine ⟨?_, markerCount_header_init ts interval, h1Count_header_init ts interval⟩
  obtain ⟨y, ys, rfl⟩ := List.exists_cons_of_ne_nil hne
  unfold combine_content
  rw [if_pos hblank, concatLines_header]
  have hm : markerCount ((create_header ts interval).dropLast ++ y :: ys) =
      markerCount (y :: ys) := by
    unfold markerCount
    rw [List.countP_append]
    have := markerCount_header_init ts interval
    unfold markerCount at this
    omega
  rcases hcap with h0 | hle
  · rw [h0]
    simp
  · by_cases hp : 0 < maxE
    · rw [if_pos hp]
      apply limit_entries_noop
      rw [hm]
      exact hle
    · rw [if_neg hp]

/-- Claim C5, witness: merging an entry into the empty document (one empty
line) yields the header block followed by the entry. -/
theorem claim_C5_witness :
    combine_content 50 "2024-01-01 00:00:00" 10 [""]
        ["", "## 📊 Market Update - now", "body", "---", ""] =
      (create_header "2024-01-01 00:00:00" 10).dropLast ++
        ["", "## 📊 Market Update - now", "body", "---", ""] :=
  (claim_C5 50 "2024-01-01 00:00:00" 10 [""]
    ["", "## 📊 Market Update - now", "body", "---", ""]
    (by decide) (by decide) (Or.inr (by decide))).1

/-- Claim C4: with a positive cap `M` at most the number `N` of existing
entries, merging a new entry (at least one marker) truncates: the output is
every line before the entry marker at index `M` of the merged document,
followed by the three footer lines, and it holds exactly `M` entry
markers. -/
theorem claim_C4 (maxE : Nat) (ts : String) (interval : Nat)
    (existing entry : List String)
    (hpos : 0 < maxE)
    (hN : maxE ≤ markerCount existing)
    (hE : 1 ≤ markerCount entry) :
    combine_content maxE ts interval existing entry =
      (insertEntry existing entry).take
          ((entryStarts (insertEntry existing entry)).getD maxE 0)
        ++ ["---", truncNote maxE, ""] ∧
    markerCount (combine_content maxE ts interval existing entry) = maxE := by
  have hnb : isBlankDoc existing = false := isBlankDoc_false_of_marker (le_trans hpos hN)
  have hgt : maxE < (entryStarts (insertEntry existing entry)).length := by
    rw [entryStarts_length, markerCount_insertEntry]
    omega
  have hmain : combine_content maxE ts interval existing entry =
      (insertEntry existing entry).take
          ((entryStarts (insertEntry existing entry)).getD maxE 0)
        ++ ["---", truncNote maxE, ""] := by
    have hnbp : ¬ (isBlankDoc existing = true) := by simp [hnb]
    unfold combine_content
    rw [if_neg hnbp, if_pos hpos]
    unfold limit_entries
    rw [if_pos hgt]
  refine ⟨hmain, ?_⟩
  rw [hmain]
  unfold markerCount
  rw [List.countP_append]
  have h1 := markerCount_take_marker (insertEntry existing entry) maxE hgt
  have h2 := markerCount_footer maxE
  unfold markerCount at h1 h2
  omega

/-- Claim C4, witness: a document with two entries and cap `1`; merging a
third entry leaves exactly one entry plus the footer. -/
theorem claim_C4_witness :
    combine_content 1 "t" 10
        ["# 🔥 Polymarket Price Monitor", "",
         "## 📊 Market Update - a", "olda", "",
         "## 📊 Market Update - b", "oldb", ""]
        ["", "## 📊 Market Update - c", "new", ""] =
      (insertEntry
          ["# 🔥 Polymarket Price Monitor", "",
           "## 📊 Market Update - a", "olda", "",
           "## 📊 Market Update - b", "oldb", ""]
          ["", "## 📊 Market Update - c", "new", ""]).take
        ((entryStarts (insertEntry
          ["# 🔥 Polymarket Price Monitor", "",
           "## 📊 Market Update - a", "olda", "",
           "## 📊 Market Update - b", "oldb", ""]
          ["", "## 📊 Market Update - c", "new", ""])).getD 1 0)
        ++ ["---", truncNote 1, ""] :=
  (claim_C4 1 "t" 10
    ["# 🔥 Polymarket Price Monitor", "",
     "## 📊 Market Update - a", "olda", "",
     "## 📊 Market Update - b", "oldb", ""]
    ["", "## 📊 Market Update - c", "new", ""]
    (by decide) (by decide) (by decide)).1

/-- The description skip never runs past the end of the document. -/
theorem skipDesc_le_length (ls : List String) : skipDesc ls ≤ ls.length := by
  induction ls with
  | nil => simp [skipDesc]
  | cons l ls ih =>
    simp only [skipDesc]
    by_cases h : skipCond l = true
    · rw [if_pos h]
      simp only [List.length_cons]
      omega
    · rw [if_neg h]
      simp

/-- Every line passed over by the description skip satisfies its
condition. -/
theorem skipCond_of_mem_take (ls : List String) :
    ∀ l ∈ ls.take (skipDesc ls), skipCond l = true := by
  induction ls with
  | nil => intro l hl; simp at hl
  | cons a ls ih =>
    intro l hl
    by_cases h : skipCond a = true
    · rw [show skipDesc (a :: ls) = skipDesc ls + 1 from by simp only [skipDesc]; rw [if_pos h]] at hl
      rw [List.take_succ_cons] at hl
      rcases List.mem_cons.mp hl with rfl | hl2
      · exact h
      · exact ih l hl2
    · rw [show skipDesc (a :: ls) = 0 from by simp only [skipDesc]; rw [if_neg h]] at hl
      simp at hl

/-- The description skip over skippable lines stops at the first blank
line. -/
theorem skipDesc_append_blank (A B : List String)
    (hA : ∀ l ∈ A, skipCond l = true) :
    skipDesc (A ++ "" :: B) = A.length := by
  induction A with
  | nil =>
    simp only [List.nil_append]
    simp only [skipDesc]
    rw [if_neg (by decide)]
    rfl
  | cons a A ih =>
    have ha : skipCond a = true := hA a (List.mem_cons_self _ _)
    simp only [List.cons_append]
    simp only [skipDesc]
    rw [if_pos ha, ih (fun x hx => hA x (List.mem_cons_of_mem _ hx))]
    rfl

/-- The insertion index never exceeds the document length. -/
theorem findInsertIndex_le (lines : List String) : findInsertIndex lines ≤ lines.length := by
  cases lines with
  | nil => simp [findInsertIndex]
  | cons l ls =>
    simp only [findInsertIndex]
    by_cases h : lineStarts "# " l = true
    · rw [if_pos h]
      have := skipDesc_le_length ls
      simp only [List.length_cons]
      omega
    · rw [if_neg h]
      simp

/-- Inserting an entry whose first line is blank does not move the insertion
index: the skip run of the merged document stops exactly at the inserted
blank line. -/
theorem findInsertIndex_insert (existing entry : List String)
    (hh : entry.head? = some "") :
    findInsertIndex (insertEntry existing entry) = findInsertIndex existing := by
  cases entry with
  | nil => simp at hh
  | cons y ys =>
    have hy : y = "" := by simpa using hh
    subst hy
    cases existing with
    | nil =>
      have hins : insertEntry [] ("" :: ys) = "" :: (ys ++ []) := by
        simp [insertEntry, findInsertIndex]
      rw [hins]
      simp only [findInsertIndex]
      rw [if_neg (by decide)]
    | cons l ls =>
      by_cases h : lineStarts "# " l = true
      · have hins : insertEntry (l :: ls) ("" :: ys) =
            l :: (ls.take (skipDesc ls) ++ "" :: (ys ++ ls.drop (skipDesc ls))) := by
          simp only [insertEntry, findInsertIndex]
          rw [if_pos h]
          rw [Nat.add_comm 1 (skipDesc ls), List.take_succ_cons, List.drop_succ_cons]
          simp [List.append_assoc]
        rw [hins]
        simp only [findInsertIndex]
        rw [if_pos h, if_pos h]
        congr 1
        rw [skipDesc_append_blank _ _ (skipCond_of_mem_take ls)]
        rw [List.length_take]
        have := skipDesc_le_length ls
        omega
      · have h0 : findInsertIndex (l :: ls) = 0 := by
          simp only [findInsertIndex]
          rw [if_neg h]
        rw [h0]
        have hins : insertEntry (l :: ls) ("" :: ys) = "" :: (ys ++ l :: ls) := by
          unfold insertEntry
          rw [h0]
          simp
        rw [hins]
        simp only [findInsertIndex]
        rw [if_neg (by decide)]

/-- Insertion preserves non-blankness of the document. -/
theorem isBlankDoc_insertEntry_false (existing entry : List String)
    (h : isBlankDoc existing = false) : isBlankDoc (insertEntry existing entry) = false := by
  unfold isBlankDoc at h ⊢
  obtain ⟨x, hx, hpx⟩ := List.all_eq_false.mp h
  apply List.all_eq_false.mpr
  refine ⟨x, ?_, hpx⟩
  have hx2 : x ∈ existing.take (findInsertIndex existing) ++
      existing.drop (findInsertIndex existing) := by
    rw [List.take_append_drop]
    exact hx
  simp only [insertEntry, List.mem_append]
  rcases List.mem_append.mp hx2 with h1 | h1
  · exact Or.inl (Or.inl h1)
  · exact Or.inr h1

/-- The lines before the insertion index hold no entry marker: the inserted
entry always lands above every existing entry. -/
theorem markerCount_take_fii (existing : List String) :
    markerCount (existing.take (findInsertIndex existing)) = 0 := by
  cases existing with
  | nil => simp [markerCount]
  | cons l ls =>
    simp only [findInsertIndex]
    by_cases h : lineStarts "# " l = true
    · rw [if_pos h, Nat.add_comm 1 (skipDesc ls), List.take_succ_cons]
      unfold markerCount
      apply List.countP_eq_zero.mpr
      intro a ha
      rcases List.mem_cons.mp ha with rfl | ha2
      · simp [isEntryStart_false_of_h1 h]
      · simp [isEntryStart_false_of_skipCond (skipCond_of_mem_take ls a ha2)]
    · rw [if_neg h]
      simp [markerCount]

/-! ## Claims C6 and C9 about the log maintainer -/

/-- Claim C6: merging the same rendered entry twice (first line blank, as
every entry produced by `_format_market_data`, which begins with a newline)
into a non-blank document, with the retention cap not exceeded, yields the
two copies side by side directly under the header region; the lines before
them hold no entry marker, so the copies sit at entry positions `0` and `1`
and no deduplication happens. -/
theorem claim_C6 (maxE : Nat) (ts : String) (interval : Nat)
    (existing entry : List String)
    (hnb : isBlankDoc existing = false)
    (hh : entry.head? = some "")
    (hcap : maxE = 0 ∨ markerCount existing + 2 * markerCount entry ≤ maxE) :
    combine_content maxE ts interval (combine_content maxE ts interval existing entry) entry =
      existing.take (findInsertIndex existing) ++ entry ++ entry
        ++ existing.drop (findInsertIndex existing) ∧
    markerCount (existing.take (findInsertIndex existing)) = 0 := by
  refine ⟨?_, markerCount_take_fii existing⟩
  have hnbp : ¬ (isBlankDoc existing = true) := by simp [hnb]
  have hd1 : combine_content maxE ts interval existing entry = insertEntry existing entry := by
    unfold combine_content
    rw [if_neg hnbp]
    rcases hcap with h0 | hle
    · rw [h0, if_neg (by omega)]
    · by_cases hp : 0 < maxE
      · rw [if_pos hp]
        apply limit_entries_noop
        rw [markerCount_insertEntry]
        omega
      · rw [if_neg hp]
  rw [hd1]
  have hnb1 : isBlankDoc (insertEntry existing entry) = false :=
    isBlankDoc_insertEntry_false existing entry hnb
  have hnbp1 : ¬ (isBlankDoc (insertEntry existing entry) = true) := by simp [hnb1]
  have hd2 : combine_content maxE ts interval (insertEntry existing entry) entry =
      insertEntry (insertEntry existing entry) entry := by
    unfold combine_content
    rw [if_neg hnbp1]
    rcases hcap with h0 | hle
    · rw [h0, if_neg (by omega)]
    · by_cases hp : 0 < maxE
      · rw [if_pos hp]
        apply limit_entries_noop
        rw [markerCount_insertEntry, markerCount_insertEntry]
        omega
      · rw [if_neg hp]
  rw [hd2]
  have hfi := findInsertIndex_insert existing entry hh
  have hlen : (existing.take (findInsertIndex existing)).length = findInsertIndex existing := by
    rw [List.length_take]
    have := findInsertIndex_le existing
    omega
  have e2 : insertEntry (insertEntry existing entry) entry =
      (insertEntry existing entry).take (findInsertIndex (insertEntry existing entry)) ++
        entry ++
        (insertEntry existing entry).drop (findInsertIndex (insertEntry existing entry)) := rfl
  rw [e2, hfi]
  have e1 : insertEntry existing entry =
      existing.take (findInsertIndex existing) ++
        (entry ++ existing.drop (findInsertIndex existing)) := by
    unfold insertEntry
    rw [List.append_assoc]
  rw [e1, List.take_left' hlen, List.drop_left' hlen]
  simp [List.append_assoc]

/-- Claim C6, witness: merging the same entry twice into a two-line document
with one existing entry stacks the two new copies right under the header. -/
theorem claim_C6_witness :
    combine_content 50 "t" 10
        (combine_content 50 "t" 10
          ["# Head", "", "## 📊 Market Update - a", "x"]
          ["", "## 📊 Market Update - b", "y"])
        ["", "## 📊 Market Update - b", "y"] =
      (["# Head", "", "## 📊 Market Update - a", "x"]).take
          (findInsertIndex ["# Head", "", "## 📊 Market Update - a", "x"]) ++
        ["", "## 📊 Market Update - b", "y"] ++
        ["", "## 📊 Market Update - b", "y"] ++
        (["# Head", "", "## 📊 Market Update - a", "x"]).drop
          (findInsertIndex ["# Head", "", "## 📊 Market Update - a", "x"]) :=
  (claim_C6 50 "t" 10
    ["# Head", "", "## 📊 Market Update - a", "x"]
    ["", "## 📊 Market Update - b", "y"]
    (by decide) (by decide) (Or.inr (by decide))).1

/-- Claim C9: on a non-blank document whose first line is not a level-1
heading, the header heuristic finds nothing and the computed insertion index
falls back to `0`: the merge prepends the entry to the whole old document
(shown here with the retention cap not binding), so both the old content and
the new entry appear in the output; the embedded merge is a total function,
the counterpart of the source's no-raise guarantee. -/
theorem claim_C9 (maxE : Nat) (ts : String) (interval : Nat)
    (existing entry : List String)
    (hnb : isBlankDoc existing = false)
    (hhd : ∀ l, existing.head? = some l → lineStarts "# " l = false)
    (hcap : maxE = 0 ∨ markerCount existing + markerCount entry ≤ maxE) :
    findInsertIndex existing = 0 ∧
    combine_content maxE ts interval existing entry = entry ++ existing := by
  have h0 : findInsertIndex existing = 0 := by
    cases existing with
    | nil => rfl
    | cons l ls =>
      simp only [findInsertIndex]
      rw [if_neg (by simp [hhd l rfl])]
  refine ⟨h0, ?_⟩
  have hins : insertEntry existing entry = entry ++ existing := by
    unfold insertEntry
    rw [h0]
    simp
  have hnbp : ¬ (isBlankDoc existing = true) := by simp [hnb]
  unfold combine_content
  rw [if_neg hnbp, hins]
  rcases hcap with hc0 | hle
  · rw [hc0, if_neg (by omega)]
  · by_cases hp : 0 < maxE
    · rw [if_pos hp]
      apply limit_entries_noop
      unfold markerCount
      rw [List.countP_append]
      unfold markerCount at hle
      omega
    · rw [if_neg hp]

/-- Claim C9, witness: a hand-edited document without a level-1 heading still
receives the new entry, inserted at index `0` above all old content. -/
theorem claim_C9_witness :
    findInsertIndex ["hand edited", "## 📊 Market Update - a", "x"] = 0 ∧
    combine_content 50 "t" 10
        ["hand edited", "## 📊 Market Update - a", "x"]
        ["", "## 📊 Market Update - b", "y"] =
      ["", "## 📊 Market Update - b", "y"] ++ ["hand edited", "## 📊 Market Update - a", "x"] :=
  claim_C9 50 "t" 10
    ["hand edited", "## 📊 Market Update - a", "x"]
    ["", "## 📊 Market Update - b", "y"]
    (by decide) (by intro l hl; cases hl; decide) (Or.inr (by decide))

/-! ## polymarket_client.py — API record normalization

`get_simplified_price_data` first fetches a market payload (by market slug,
else the first market of the event); the fetched payload and the CLOB markets
list (the `data` field of the CLOB response; an absent field behaves as the
empty list) are inputs of the embedding.  Missing payload keys are `none`.
The record under construction is a Python dict: an ordered association list
where assignment overwrites an existing key in place and appends a new key at
the end — `dictInsert` below.  The placeholder CLOB price `0.5` is
`mkRat 1 2`. -/

/-- A value stored in the simplified record. -/
inductive Val where
  | str (s : String)
  | bool (b : Bool)
  | num (q : ℚ)
deriving DecidableEq, Repr

/-- A CLOB token: only its `outcome` field is read. -/
structure Token where
  outcome : Option String
deriving DecidableEq, Repr

/-- The fields of an API market payload read by the normalization. -/
structure MarketPayload where
  question : Option String
  market_slug : Option String
  condition_id : Option String
  category : Option String
  end_date_iso : Option String
  active : Option Bool
  closed : Option Bool
  tokens : Option (List Token)
deriving DecidableEq, Repr

/-- One market of the CLOB response. -/
structure ClobMarket where
  condition_id : Option String
  tokens : Option (List Token)
deriving DecidableEq, Repr

/-- Python dict assignment on an ordered association list: overwrite in
place when the key exists, else append. -/
def dictInsert {α : Type} (d : List (String × α)) (k : String) (v : α) : List (String × α) :=
  if d.any (fun p => p.1 == k) then d.map (fun p => if p.1 == k then (k, v) else p)
  else d ++ [(k, v)]

/-- The token loop of `get_market_prices_from_clob` (lines 130-135):
`prices[outcome] = 0.5` per token. -/
def assignPrices (toks : List Token) : List (String × ℚ) :=
  toks.foldl (fun acc t => dictInsert acc (t.outcome.getD "Unknown") (mkRat 1 2)) []

/-- `get_market_prices_from_clob` (lines 98-141): find the CLOB market with
the wanted condition id; `None` when absent, else the placeholder price per
token (the empty dict when the market has no `tokens` key). -/
def get_market_prices_from_clob (clobData : List ClobMarket) (condition_id : String) :
    Option (List (String × ℚ)) :=
  match clobData.find? (fun m => m.condition_id == some condition_id) with
  | none => none
  | some m =>
    match m.tokens with
    | some toks => some (assignPrices toks)
    | none => some []

/-- The eight fixed fields of the simplified record (lines 169-178), with the
documented defaults for missing payload keys. -/
def baseRecord (slug ts : String) (md : MarketPayload) : List (String × Val) :=
  [("timestamp", .str ts),
   ("market_title", .str (md.question.getD "Unknown Market")),
   ("market_slug", .str (md.market_slug.getD slug)),
   ("condition_id", .str (md.condition_id.getD "Unknown")),
   ("category", .str (md.category.getD "Unknown")),
   ("end_date", .str (md.end_date_iso.getD "Unknown")),
   ("active", .bool (md.active.getD false)),
   ("closed", .bool (md.closed.getD false))]

/-- The placeholder branch (lines 187-191): one `{outcome}_price` key holding
the literal `N/A` per payload token. -/
def naFallback (base : List (String × Val)) (md : MarketPayload) : List (String × Val) :=
  match md.tokens with
  | some toks =>
    toks.foldl
      (fun acc t => dictInsert acc (t.outcome.getD "Unknown" ++ "_price") (Val.str "N/A")) base
  | none => base

/-- `get_simplified_price_data` (lines 143-197).  A falsy condition id (the
key absent, or the empty string) skips the price section entirely; a truthy
CLOB result is merged with `update` (plain outcome keys); a falsy CLOB
result (`None` or the empty dict) falls back to the `N/A` placeholders. -/
def get_simplified_price_data (slug ts : String) (clobData : List ClobMarket)
    (md : MarketPayload) : List (String × Val) :=
  let base := baseRecord slug ts md
  match md.condition_id with
  | none => base
  | some cid =>
    if cid = "" then base
    else
      match get_market_prices_from_clob clobData cid with
      | some prices =>
        if prices.isEmpty then naFallback base md
        else prices.foldl (fun acc q => dictInsert acc q.1 (Val.num q.2)) base
      | none => naFallback base md

/-! ## Claim C7 -/

/-- Claim C7: a payload without the `condition_id` key normalizes to a record
whose keys are exactly the eight fixed fields — hence no per-outcome price
key — with `condition_id` bound to `Unknown`.  The embedded normalization is
a total function: the no-raise guarantee of the source corresponds to the
fact that every payload shape is covered by defaults. -/
theorem claim_C7 (slug ts : String) (clobData : List ClobMarket) (md : MarketPayload)
    (h : md.condition_id = none) :
    (get_simplified_price_data slug ts clobData md).map Prod.fst =
      ["timestamp", "market_title", "market_slug", "condition_id", "category",
       "end_date", "active", "closed"] ∧
    List.lookup "condition_id" (get_simplified_price_data slug ts clobData md) =
      some (Val.str "Unknown") := by
  simp only [get_simplified_price_data, h, baseRecord]
  exact ⟨rfl, rfl⟩

/-- Claim C7, witness: the fully empty payload. -/
theorem claim_C7_witness :
    (get_simplified_price_data "slug" "ts" []
        ⟨none, none, none, none, none, none, none, none⟩).map Prod.fst =
      ["timestamp", "market_title", "market_slug", "condition_id", "category",
       "end_date", "active", "closed"] ∧
    List.lookup "condition_id" (get_simplified_price_data "slug" "ts" []
        ⟨none, none, none, none, none, none, none, none⟩) =
      some (Val.str "Unknown") :=
  claim_C7 "slug" "ts" [] ⟨none, none, none, none, none, none, none, none⟩ rfl

/-! ## Lemmas about dict assignment and lookup -/

/-- `lookup` at a matching head key. -/
theorem lookup_cons_eq {α : Type} (k k1 : String) (v1 : α) (es : List (String × α))
    (h : (k == k1) = true) : List.lookup k ((k1, v1) :: es) = some v1 := by
  simp [List.lookup, h]

/-- `lookup` past a non-matching head key. -/
theorem lookup_cons_ne {α : Type} (k k1 : String) (v1 : α) (es : List (String × α))
    (h : (k == k1) = false) : List.lookup k ((k1, v1) :: es) = List.lookup k es := by
  simp [List.lookup, h]

/-- Key equality tests are symmetric in their failure. -/
theorem beq_symm_false {a b : String} (h : (a == b) = false) : (b == a) = false := by
  cases hs : (b == a) with
  | false => rfl
  | true =>
    rw [eq_of_beq hs] at h
    rw [beq_self_eq_true] at h
    cases h

/-- `lookup` across an append. -/
theorem lookup_append {α : Type} (k : String) (d d2 : List (String × α)) :
    List.lookup k (d ++ d2) =
      match List.lookup k d with
      | some v => some v
      | none => List.lookup k d2 := by
  induction d with
  | nil => rfl
  | cons p rest ih =>
    obtain ⟨k1, v1⟩ := p
    cases h : (k == k1) with
    | true =>
      rw [List.cons_append, lookup_cons_eq _ _ _ _ h, lookup_cons_eq _ _ _ _ h]
    | false =>
      rw [List.cons_append, lookup_cons_ne _ _ _ _ h, lookup_cons_ne _ _ _ _ h, ih]

/-- A key matching no entry is not found. -/
theorem lookup_eq_none_of_not_any {α : Type} (k : String) (d : List (String × α))
    (h : d.any (fun p => p.1 == k) = false) : List.lookup k d = none := by
  induction d with
  | nil => rfl
  | cons p rest ih =>
    obtain ⟨k1, v1⟩ := p
    rw [List.any_cons] at h
    rcases Bool.or_eq_false_iff.mp h with ⟨h1, h2⟩
    rw [lookup_cons_ne _ _ _ _ (beq_symm_false h1)]
    exact ih h2

/-- Overwriting the entries of key `k` realigns its lookup. -/
theorem lookup_map_overwrite_self {α : Type} (k : String) (v : α) :
    ∀ d : List (String × α), d.any (fun p => p.1 == k) = true →
      List.lookup k (d.map (fun p => if p.1 == k then (k, v) else p)) = some v := by
  intro d
  induction d with
  | nil => intro h; simp at h
  | cons p rest ih =>
    intro h
    obtain ⟨k1, v1⟩ := p
    by_cases h1 : (k1 == k) = true
    · simp only [List.map_cons, h1, if_true]
      exact lookup_cons_eq _ _ _ _ (beq_self_eq_true k)
    · have h1f : (k1 == k) = false := by simpa using h1
      simp only [List.map_cons, h1f, Bool.false_eq_true, if_false]
      rw [lookup_cons_ne _ _ _ _ (beq_symm_false h1f)]
      apply ih
      rw [List.any_cons] at h
      rcases Bool.or_eq_true_iff.mp h with hh | hh
      · exact absurd hh h1
      · exact hh

/-- Overwriting the entries of another key leaves a lookup unchanged. -/
theorem lookup_map_overwrite_ne {α : Type} (k k2 : String) (v : α)
    (hkk : (k == k2) = false) :
    ∀ d : List (String × α),
      List.lookup k (d.map (fun p => if p.1 == k2 then (k2, v) else p)) = List.lookup k d := by
  intro d
  induction d with
  | nil => rfl
  | cons p rest ih =>
    obtain ⟨k1, v1⟩ := p
    by_cases h1 : (k1 == k2) = true
    · simp only [List.map_cons, h1, if_true]
      have hk1 : (k == k1) = false := by
        rw [eq_of_beq h1]
        exact hkk
      rw [lookup_cons_ne _ _ _ _ hkk, lookup_cons_ne _ _ _ _ hk1, ih]
    · have h1f : (k1 == k2) = false := by simpa using h1
      simp only [List.map_cons, h1f, Bool.false_eq_true, if_false]
      cases hk1 : (k == k1) with
      | true => rw [lookup_cons_eq _ _ _ _ hk1, lookup_cons_eq _ _ _ _ hk1]
      | false => rw [lookup_cons_ne _ _ _ _ hk1, lookup_cons_ne _ _ _ _ hk1, ih]

/-- Assigning a key makes it looked up. -/
theorem lookup_dictInsert_self {α : Type} (d : List (String × α)) (k : String) (v : α) :
    List.lookup k (dictInsert d k v) = some v := by
  unfold dictInsert
  by_cases hany : d.any (fun p => p.1 == k) = true
  · rw [if_pos hany]
    exact lookup_map_overwrite_self k v d hany
  · rw [if_neg hany]
    rw [lookup_append, lookup_eq_none_of_not_any k d (Bool.eq_false_iff.mpr hany)]
    exact lookup_cons_eq _ _ _ _ (beq_self_eq_true k)

/-- Assigning a different key does not change a lookup. -/
theorem lookup_dictInsert_ne {α : Type} (d : List (String × α)) (k k2 : String) (v : α)
    (h : k2 ≠ k) : List.lookup k (dictInsert d k2 v) = List.lookup k d := by
  have hkk : (k == k2) = false := by
    cases hs : (k == k2) with
    | false => rfl
    | true => exact absurd (eq_of_beq hs).symm h
  unfold dictInsert
  by_cases hany : d.any (fun p => p.1 == k2) = true
  · rw [if_pos hany]
    exact lookup_map_overwrite_ne k k2 v hkk d
  · rw [if_neg hany]
    rw [lookup_append]
    cases hl : List.lookup k d with
    | some v1 => rfl
    | none => exact lookup_cons_ne _ _ _ _ hkk

/-- A sequence of assignments avoiding key `k` leaves its lookup unchanged. -/
theorem lookup_foldl_insert_absent {α : Type} (k : String) (kvs : List (String × α)) :
    ∀ d : List (String × α), (∀ q ∈ kvs, q.1 ≠ k) →
      List.lookup k (kvs.foldl (fun acc q => dictInsert acc q.1 q.2) d) =
        List.lookup k d := by
  induction kvs with
  | nil => intro d _; rfl
  | cons q rest ih =>
    intro d h
    rw [List.foldl_cons]
    rw [ih _ (fun x hx => h x (List.mem_cons_of_mem _ hx))]
    exact lookup_dictInsert_ne d k q.1 q.2 (h q (List.mem_cons_self _ _))

/-- A sequence of assignments holding `(k, v)` exactly once for key `k`
leaves `k` bound to `v`. -/
theorem lookup_foldl_insert_once {α : Type} (k : String) (v : α) (kvs : List (String × α)) :
    ∀ d : List (String × α), (k, v) ∈ kvs →
      kvs.countP (fun q => q.1 == k) = 1 →
      List.lookup k (kvs.foldl (fun acc q => dictInsert acc q.1 q.2) d) = some v := by
  induction kvs with
  | nil => intro d hmem _; simp at hmem
  | cons q rest ih =>
    intro d hmem huniq
    rw [List.foldl_cons]
    by_cases hq : (q.1 == k) = true
    · have hrest0 : rest.countP (fun q => q.1 == k) = 0 := by
        simp only [List.countP_cons, hq, if_true] at huniq
        omega
      have habs : ∀ x ∈ rest, x.1 ≠ k := by
        intro x hx hxk
        have hz := List.countP_eq_zero.mp hrest0 x hx
        simp [hxk] at hz
      rw [lookup_foldl_insert_absent k rest _ habs]
      rcases List.mem_cons.mp hmem with hqe | hm2
      · rw [← hqe]
        exact lookup_dictInsert_self d k v
      · exact absurd rfl (habs (k, v) hm2)
    · have hqf : (q.1 == k) = false := by simpa using hq
      have hm2 : (k, v) ∈ rest := by
        rcases List.mem_cons.mp hmem with hqe | hm
        · rw [← hqe] at hqf
          rw [beq_self_eq_true] at hqf
          cases hqf
        · exact hm
      have huniq2 : rest.countP (fun q => q.1 == k) = 1 := by
        simp only [List.countP_cons, hqf, Bool.false_eq_true, if_false] at huniq
        omega
      exact ih _ hm2 huniq2

/-- A sequence of assignments all carrying the same value `v0` binds every
mentioned key to `v0`. -/
theorem lookup_foldl_insert_const {α : Type} (k : String) (v0 : α) (kvs : List (String × α)) :
    ∀ d : List (String × α), (∀ q ∈ kvs, q.2 = v0) → k ∈ kvs.map Prod.fst →
      List.lookup k (kvs.foldl (fun acc q => dictInsert acc q.1 q.2) d) = some v0 := by
  induction kvs with
  | nil => intro d _ hmem; simp at hmem
  | cons q rest ih =>
    intro d hval hmem
    rw [List.foldl_cons]
    by_cases hr : k ∈ rest.map Prod.fst
    · exact ih _ (fun x hx => hval x (List.mem_cons_of_mem _ hx)) hr
    · have hq : q.1 = k := by
        rw [List.map_cons] at hmem
        rcases List.mem_cons.mp hmem with hqe | hm
        · exact hqe.symm
        · exact absurd hm hr
      have habs : ∀ x ∈ rest, x.1 ≠ k := by
        intro x hx hxk
        exact hr (by rw [← hxk]; exact List.mem_map_of_mem _ hx)
      rw [lookup_foldl_insert_absent k rest _ habs]
      rw [← hq, ← hval q (List.mem_cons_self _ _)]
      exact lookup_dictInsert_self d q.1 q.2

/-- No key of the base record ends in `_price`, so a `{outcome}_price` key is
never found in it. -/
theorem lookup_baseRecord_price (slug ts : String) (md : MarketPayload) (o : String) :
    List.lookup (o ++ "_price") (baseRecord slug ts md) = none := by
  have hsuf : ∀ k : String, ¬ ("_price".data <:+ k.data) → ((o ++ "_price") == k) = false := by
    intro k hk
    cases hbe : ((o ++ "_price") == k) with
    | false => rfl
    | true =>
      exfalso
      apply hk
      rw [← eq_of_beq hbe, String.data_append]
      exact ⟨o.data, rfl⟩
  unfold baseRecord
  rw [lookup_cons_ne _ _ _ _ (hsuf "timestamp" (by decide)),
      lookup_cons_ne _ _ _ _ (hsuf "market_title" (by decide)),
      lookup_cons_ne _ _ _ _ (hsuf "market_slug" (by decide)),
      lookup_cons_ne _ _ _ _ (hsuf "condition_id" (by decide)),
      lookup_cons_ne _ _ _ _ (hsuf "category" (by decide)),
      lookup_cons_ne _ _ _ _ (hsuf "end_date" (by decide)),
      lookup_cons_ne _ _ _ _ (hsuf "active" (by decide)),
      lookup_cons_ne _ _ _ _ (hsuf "closed" (by decide))]
  rfl

/-! ## Claim C8 -/

/-- Claim C8, counterexample.  The claim asserts that resolvable per-outcome
prices are stored under `{outcome}_price`.  In the source, resolvable CLOB
prices are merged with `update(prices)`, whose keys are the plain outcome
names: for a market with outcome `Yes` the record gains the key `Yes`
holding `0.5` and holds no key `Yes_price`. -/
theorem claim_C8_counterexample :
    List.lookup "Yes_price"
        (get_simplified_price_data "s" "t"
          [⟨some "c1", some [⟨some "Yes"⟩]⟩]
          ⟨some "Q", some "s", some "c1", some "Cat", some "D", some true, some false,
            some [⟨some "Yes"⟩]⟩) = none ∧
    List.lookup "Yes"
        (get_simplified_price_data "s" "t"
          [⟨some "c1", some [⟨some "Yes"⟩]⟩]
          ⟨some "Q", some "s", some "c1", some "Cat", some "D", some true, some false,
            some [⟨some "Yes"⟩]⟩) = some (Val.num (mkRat 1 2)) := by
  exact ⟨by decide, by decide⟩

/-- Claim C8 (amended): with a truthy condition id, when the CLOB prices are
resolvable (a non-empty dict) each price is stored under the plain outcome
key — not under `{outcome}_price`, which stays absent when no price key
collides with it; only when the prices are not resolvable (`None` or the
empty dict) does each payload token produce a `{outcome}_price` key holding
the literal `N/A`. -/
theorem claim_C8 (slug ts : String) (clobData : List ClobMarket) (md : MarketPayload)
    (cid : String) (hc : md.condition_id = some cid) (hne : cid ≠ "") :
    (∀ prices, get_market_prices_from_clob clobData cid = some prices → prices ≠ [] →
      ∀ o p, (o, p) ∈ prices → prices.countP (fun q => q.1 == o) = 1 →
        List.lookup o (get_simplified_price_data slug ts clobData md) =
          some (Val.num p) ∧
        ((o ++ "_price") ∉ prices.map Prod.fst →
          List.lookup (o ++ "_price") (get_simplified_price_data slug ts clobData md) =
            none)) ∧
    (∀ toks, md.tokens = some toks →
      (get_market_prices_from_clob clobData cid = none ∨
        get_market_prices_from_clob clobData cid = some []) →
      ∀ t ∈ toks,
        List.lookup (t.outcome.getD "Unknown" ++ "_price")
          (get_simplified_price_data slug ts clobData md) = some (Val.str "N/A")) := by
  constructor
  · intro prices hp hnonempty o p hmem huniq
    have hempf : ¬ (prices.isEmpty = true) := by
      simp [List.isEmpty_iff, hnonempty]
    have hsimpl : get_simplified_price_data slug ts clobData md =
        (prices.map (fun q => (q.1, Val.num q.2))).foldl
          (fun acc q => dictInsert acc q.1 q.2) (baseRecord slug ts md) := by
      simp only [get_simplified_price_data, hc, hp]
      rw [if_neg hne, if_neg hempf, List.foldl_map]
    rw [hsimpl]
    constructor
    · apply lookup_foldl_insert_once
      · exact List.mem_map_of_mem _ hmem
      · rw [List.countP_map]
        exact huniq
    · intro habs
      rw [lookup_foldl_insert_absent]
      · exact lookup_baseRecord_price slug ts md o
      · intro q hq hqk
        obtain ⟨q0, hq0, hfq⟩ := List.mem_map.mp hq
        apply habs
        rw [← hqk, ← hfq]
        exact List.mem_map_of_mem _ hq0
  · intro toks htoks hclob t ht
    have hsimpl : get_simplified_price_data slug ts clobData md =
        naFallback (baseRecord slug ts md) md := by
      rcases hclob with h1 | h1
      · simp only [get_simplified_price_data, hc, h1]
        rw [if_neg hne]
      · simp only [get_simplified_price_data, hc, h1, List.isEmpty_nil, if_true]
        rw [if_neg hne]
    have hfold : toks.foldl
        (fun acc t => dictInsert acc (t.outcome.getD "Unknown" ++ "_price") (Val.str "N/A"))
        (baseRecord slug ts md) =
        (toks.map (fun t => (t.outcome.getD "Unknown" ++ "_price", Val.str "N/A"))).foldl
          (fun acc q => dictInsert acc q.1 q.2) (baseRecord slug ts md) := by
      rw [List.foldl_map]
    rw [hsimpl]
    simp only [naFallback, htoks]
    rw [hfold]
    apply lookup_foldl_insert_const
    · intro q hq
      obtain ⟨t0, _, hfq⟩ := List.mem_map.mp hq
      rw [← hfq]
    · rw [List.map_map]
      exact List.mem_map_of_mem _ ht

/-- Claim C8, witness: a resolvable market with outcome `Yes` gets the price
under the key `Yes`. -/
theorem claim_C8_witness :
    List.lookup "Yes"
        (get_simplified_price_data "s" "t"
          [⟨some "c1", some [⟨some "Yes"⟩]⟩]
          ⟨some "Q", some "s", some "c1", some "Cat", some "D", some true, some false,
            some [⟨some "Yes"⟩]⟩) = some (Val.num (mkRat 1 2)) :=
  ((claim_C8 "s" "t"
      [⟨some "c1", some [⟨some "Yes"⟩]⟩]
      ⟨some "Q", some "s", some "c1", some "Cat", some "D", some true, some false,
        some [⟨some "Yes"⟩]⟩
      "c1" rfl (by decide)).1
    [("Yes", mkRat 1 2)] (by decide) (by decide) "Yes" (mkRat 1 2)
    (by decide) (by decide)).1
